import Mathlib

/-
Verification development for the devito loop engine
(src/devito/dle/backends/advanced.py).

The file shallowly embeds the parts of the rewriter that the claims are
about:

* Part A - the per-dimension index arithmetic of `DevitoRewriter._loop_blocking`
  (inter-block, intra-block, remainder loop bounds) and the index sets the
  generated trees execute.
* Part B - a tree-level model of the blocking pass (loop selection, blocked
  tree, remainder trees over dimension subsets).
* Part C - a model of `DevitoRewriter._ompize` (OpenMP decoration).
* Part D - block-shape resolution (the tail of `_loop_blocking`).
* Part E - the candidate gate of `DevitoRewriter._loop_fission`.
* Part F - the feasibility segment of `DevitoSpeculativeRewriter._padding`.
* Part G - `DevitoCustomRewriter.__init__` pass-name validation.

Machine integers do not occur: the Python code computes with unbounded ints
and SymPy symbols; symbolic values (block sizes) are embedded either as
explicit parameters evaluated at runtime values (Part A) or as a small
symbolic-expression type (Part B).
-/

-- ======================================================================
-- Part A: index sets of the blocked/remainder trees (_loop_blocking)
-- ======================================================================

/-- One blocked dimension, with the quantities `_loop_blocking` computes for
it (advanced.py lines 150-175), evaluated at a runtime block size:
`start = i.limits[0] - i.offsets[0]`, `stop = iter_size - i.offsets[1]`,
`off1 = i.offsets[1]`, and `bsize` the runtime value of the symbolic block
size `dim.symbolic_size`. -/
structure BlockedDim where
  start : Int
  stop : Int
  off1 : Int
  bsize : Int
deriving DecidableEq

/-- Upper limit of the inter-block loop:
`finish = finish - ((finish - i.offsets[1]) % block_size)` where the first
`finish` is `iter_size - i.offsets[1]` (advanced.py line 157). Python `%`
with a positive divisor agrees with `Int.emod`. -/
def interFinish (d : BlockedDim) : Int :=
  d.stop - (d.stop - d.off1) % d.bsize

/-- Values taken by the inter-block loop
`for b = start; b < finish; b += block_size` (line 158). -/
def interVals (d : BlockedDim) (b : Int) : Prop :=
  d.start ≤ b ∧ b < interFinish d ∧ (b - d.start) % d.bsize = 0

/-- Index points of the original dimension executed by the inter-block /
intra-block pair: the intra-block loop runs `for x = b; x < b + block_size;
x += 1` for each inter-block value `b` (lines 163-167). -/
def blockedPts (d : BlockedDim) (x : Int) : Prop :=
  ∃ b : Int, interVals d b ∧ b ≤ x ∧ x < b + d.bsize

/-- Index points executed by the remainder loop
`for x = inter_block.limits[1]; x < iter_size - i.offsets[1]; x += 1`
(lines 172-174). -/
def remainderPts (d : BlockedDim) (x : Int) : Prop :=
  interFinish d ≤ x ∧ x < d.stop

/-- Index points of the original loop `for x = start; x < stop; x += 1`. -/
def domainPts (d : BlockedDim) (x : Int) : Prop :=
  d.start ≤ x ∧ x < d.stop

/-- Index set executed by one generated tree.  The main blocked tree is the
tree for `S = ∅`; the remainder tree built for a subset `c` of the blocked
dimensions uses the remainder loop on the dimensions in `c` and the
inter/intra-block pair on the others (advanced.py lines 181-195). -/
def treeExec {k : Nat} (ds : Fin k → BlockedDim) (S : Finset (Fin k))
    (x : Fin k → Int) : Prop :=
  ∀ i : Fin k, if i ∈ S then remainderPts (ds i) (x i) else blockedPts (ds i) (x i)

/-- The dimension of the C1 counterexample: the loop
`Iteration(limits=(0, 5, 1), offsets=(0, 1))` over a dimension of size 5,
blocked with block size 2.  Then `start = 0 - 0 = 0`,
`stop = 5 - 1 = 4`, `off1 = 1`. -/
def cexDim : BlockedDim := { start := 0, stop := 4, off1 := 1, bsize := 2 }

/-- The dimension used to witness the amended C1: limits `(0, 11, 1)`,
symmetric offsets `(-2, 2)`, dimension size 11, block size 3, so
`start = 2`, `stop = 9`; the extent 7 is not a multiple of 3. -/
def witDim : BlockedDim := { start := 2, stop := 9, off1 := 2, bsize := 3 }

-- ======================================================================
-- Part B: tree model of the blocking pass (_loop_blocking, lines 122-203)
-- ======================================================================

/-- Symbolic limit expressions, as the pass builds them from SymPy symbols
(block sizes, block-dimension induction variables) and ints. -/
inductive SExpr where
  | lit (n : Int)
  | symb (s : String)
  | add (a b : SExpr)
  | sub (a b : SExpr)
  | emod (a b : SExpr)
deriving DecidableEq

/-- Pragmas attached to loops (omplang entries and compiler decorations). -/
inductive Pragma where
  | ompFor
  | ompCollapse (n : Nat)
  | simdFor
  | text (s : String)
deriving DecidableEq

/-- Iteration properties (devito.nodes: PARALLEL, VECTOR, SEQUENTIAL,
ELEMENTAL, REMAINDER, tagger(i)). -/
inductive IterProp where
  | parallel
  | vectorizable
  | sequential
  | elemental
  | remainder
  | tagged (n : Nat)
deriving DecidableEq

/-- A symbol referenced by an expression; `memStack` models `_mem_stack`. -/
structure Symb where
  name : String
  memStack : Bool
deriving DecidableEq

/-- A leaf Expression node (only identity and referenced symbols matter
here). -/
structure LeafExpr where
  id : Nat
  syms : List Symb
deriving DecidableEq

/-- The data of one Iteration node: dimension name, limits `(start, stop,
step)` as symbolic expressions, offsets, the optional concrete dimension
size (`i.dim.size`), properties and pragmas. -/
structure IterData where
  dim : String
  start : SExpr
  stop : SExpr
  step : SExpr
  off0 : Int
  off1 : Int
  dimSize : Option Int
  props : List IterProp
  pragmas : List Pragma
deriving DecidableEq

/-- An iteration nest: a chain of Iteration nodes over a leaf body.  The
blocking pass only transforms perfectly nested chains
(`IsPerfectIteration` check, line 139), which this type captures. -/
inductive Nest where
  | leaf (exprs : List LeafExpr)
  | loop (d : IterData) (rest : Nest)
deriving DecidableEq

/-- The chain of Iteration nodes of a nest, outermost first
(`retrieve_iteration_tree` on a perfect nest). -/
def Nest.loops : Nest → List IterData
  | .leaf _ => []
  | .loop d r => d :: Nest.loops r

/-- Source: `compose_nodes(ls + [body])` from devito.dle: nest each node inside the
previous one. -/
def composeNest : List IterData → Nest → Nest
  | [], t => t
  | d :: ds, t => .loop d (composeNest ds t)

/-- The subtree hanging below the (first) loop over the named dimension;
models `iterations[-1].nodes` once the last selected loop is located. -/
def Nest.belowDim (dimName : String) : Nest → Option Nest
  | .leaf _ => none
  | .loop d r => if d.dim = dimName then some r else Nest.belowDim dimName r

/-- First loop over the named dimension in a nest, with its full data. -/
def Nest.findLoop (dimName : String) : Nest → Option IterData
  | .leaf _ => none
  | .loop d r => if d.dim = dimName then some d else Nest.findLoop dimName r

/-- Source: `Dimension("%s_block" % i.dim.name)` (line 152). -/
def blockDimName (dimName : String) : String := dimName ++ "_block"

/-- Source: `block_size = dim.symbolic_size` for the derived block dimension. -/
def blockSizeSym (d : IterData) : SExpr := .symb (blockDimName d.dim ++ "_size")

/-- Source: `iter_size = i.dim.size or i.dim.symbolic_size` (line 154). -/
def iterSizeExpr (d : IterData) : SExpr :=
  match d.dimSize with
  | some n => .lit n
  | none => .symb (d.dim ++ "_size")

/-- The inter-block Iteration (lines 151-160): fresh node over the block
dimension, limits `[limits[0] - offsets[0], finish - ((finish - offsets[1])
% block_size), block_size]` with `finish = iter_size - offsets[1]`, marked
PARALLEL, no offsets, no pragmas. -/
def interBlockOf (d : IterData) : IterData :=
  let bs := blockSizeSym d
  let start := SExpr.sub d.start (.lit d.off0)
  let finish0 := SExpr.sub (iterSizeExpr d) (.lit d.off1)
  let finish := SExpr.sub finish0 (.emod (SExpr.sub finish0 (.lit d.off1)) bs)
  { dim := blockDimName d.dim, start := start, stop := finish, step := bs,
    off0 := 0, off1 := 0, dimSize := none, props := [.parallel], pragmas := [] }

/-- The intra-block Iteration (lines 162-167): `i._rebuild` with limits
`[inter_block.dim, inter_block.dim + block_size, 1]`, offsets reset, and
properties `i.properties + (TAG, ELEMENTAL)`. -/
def intraBlockOf (tagIdx : Nat) (d : IterData) : IterData :=
  let bs := blockSizeSym d
  let start := SExpr.symb (blockDimName d.dim)
  { d with start := start, stop := .add start bs, step := .lit 1,
           off0 := 0, off1 := 0,
           props := d.props ++ [.tagged tagIdx, .elemental] }

/-- The remainder Iteration (lines 169-175): `i._rebuild` with limits
`[inter_block.limits[1], iter_size - offsets[1], 1]` and offsets reset
(properties kept as on `i`). -/
def remainderOf (d : IterData) : IterData :=
  { d with start := (interBlockOf d).stop,
           stop := SExpr.sub (iterSizeExpr d) (.lit d.off1),
           step := .lit 1, off0 := 0, off1 := 0 }

/-- Source: `b._rebuild(properties=b.properties + (REMAINDER,))` (line 186). -/
def addRemainderProp (d : IterData) : IterData :=
  { d with props := d.props ++ [.remainder] }

/-- Source: `properties = (REMAINDER, TAG, ELEMENTAL)` (line 190). -/
def remainderProps (tagIdx : Nat) : List IterProp :=
  [.remainder, .tagged tagIdx, .elemental]

/-- Source: `handle._rebuild(properties=properties)` (line 193). -/
def withRemainderProps (tagIdx : Nat) (d : IterData) : IterData :=
  { d with props := remainderProps tagIdx }

/-- The subsets enumerated by
`for n in range(len(iterations)): for c in combinations(dims, n + 1)`
(lines 183-184): every non-empty subset of the selected dimensions. -/
def remainderSubsets (dims : List String) : List (List String) :=
  (List.range dims.length).flatMap (fun n => List.sublistsLen (n + 1) dims)

/-- One remainder tree (lines 185-195): the inter-block loops of the
dimensions outside the subset `c` (re-marked REMAINDER), then per selected
dimension either the remainder loop (dimension in `c`) or the intra-block
loop, each rebuilt with `(REMAINDER, TAG, ELEMENTAL)`, over the original
subtree below the last selected loop. -/
def remainderTreeOf (tagIdx : Nat) (iters : List IterData) (sub : Nest)
    (c : List String) : Nest :=
  let inter_blocks := iters.map interBlockOf
  let intra_blocks := iters.map (intraBlockOf tagIdx)
  let rems := iters.map remainderOf
  let inters := ((inter_blocks.zip rems).filter
      (fun br => decide (br.2.dim ∉ c))).map (fun br => addRemainderProp br.1)
  let mixed := (intra_blocks.zip rems).map
      (fun br => withRemainderProps tagIdx (if br.1.dim ∈ c then br.2 else br.1))
  composeNest (inters ++ mixed) sub

/-- The main blocked tree (lines 177-179): all inter-block loops, then all
intra-block loops, then the subtree below the last selected loop. -/
def blockedTreeOf (tagIdx : Nat) (iters : List IterData) (sub : Nest) : Nest :=
  composeNest (iters.map interBlockOf ++ iters.map (intraBlockOf tagIdx)) sub

/-- Loop selection (lines 133-135): the parallel Iterations of the tree,
dropping the vectorizable ones when the innermost-exclusion policy is set. -/
def selectBlockable (excludeInnermost : Bool) (n : Nest) : List IterData :=
  let par := n.loops.filter (fun d => decide (IterProp.parallel ∈ d.props))
  if excludeInnermost then
    par.filter (fun d => decide (IterProp.vectorizable ∉ d.props))
  else par

/-- The per-nest blocking transformation (lines 131-198): select the
blockable Iterations, build the blocked tree and one remainder tree per
non-empty subset of the selected dimensions; the selected root is replaced
by the returned sequence `[blocked tree] + remainder trees`.  Returns
`none` when no Iteration qualifies (nest skipped). -/
def blockNest (excludeInnermost : Bool) (tagIdx : Nat) (n : Nest) :
    Option (List Nest) :=
  match (selectBlockable excludeInnermost n).getLast? with
  | none => none
  | some lastIt =>
    match n.belowDim lastIt.dim with
    | none => none
    | some sub =>
      some (blockedTreeOf tagIdx (selectBlockable excludeInnermost n) sub ::
        (remainderSubsets ((selectBlockable excludeInnermost n).map (fun d => d.dim))).map
          (remainderTreeOf tagIdx (selectBlockable excludeInnermost n) sub))

/-- Concrete parallel loop over `i`, size 20, for witnesses. -/
def selI : IterData :=
  { dim := "i", start := .lit 0, stop := .lit 20, step := .lit 1,
    off0 := 0, off1 := 0, dimSize := some 20, props := [.parallel], pragmas := [] }

/-- Concrete parallel loop over `j`, size 20, for witnesses. -/
def selJ : IterData :=
  { dim := "j", start := .lit 0, stop := .lit 20, step := .lit 1,
    off0 := 0, off1 := 0, dimSize := some 20, props := [.parallel], pragmas := [] }

/-- Concrete parallel, vectorizable innermost loop over `k`, size 4. -/
def vecK : IterData :=
  { dim := "k", start := .lit 0, stop := .lit 4, step := .lit 1,
    off0 := 0, off1 := 0, dimSize := some 4,
    props := [.parallel, .vectorizable], pragmas := [] }

/-- A one-expression innermost body. -/
def bodyLf : List LeafExpr := [{ id := 0, syms := [] }]

-- ======================================================================
-- Part C: model of _ompize (advanced.py lines 271-322)
-- ======================================================================

/-- A top-level node of a tree handed to `_ompize`: a denormal marker, an
iteration nest, or a parallel-region Block.  A region's body is the
denormal markers followed by the rebuilt nest roots
(`Block(header=..., body=denormals + [i for i in mapper.values() if i])`,
lines 312-313). -/
inductive ONode where
  | denorm
  | nest (n : Nest)
  | region (pvt : String) (nden : Nat) (loops : List Nest)
deriving DecidableEq

/-- The candidate key of `_ompize` (line 288):
`i.is_Parallel and not i.is_Vectorizable`. -/
def parNonVec (d : IterData) : Bool :=
  decide (IterProp.parallel ∈ d.props) && !decide (IterProp.vectorizable ∈ d.props)

/-- Modelled from the spec (filter_iterations is not under src/):
`filter_iterations(tree, key=key, stop='any')` selects the longest
consecutive prefix of iterations satisfying the key, stopping at the first
non-qualifying level (spec section 4.5). -/
def candidatesOf (n : Nest) : List IterData := n.loops.takeWhile parNonVec

/-- Pragma choice (lines 296-301): plain parallel-for when
`cpu_count(logical=False) < thresholds['collapse']` or fewer than two
candidates, else `collapse(nparallel)`. -/
def ompPragma (cores collapseThs nparallel : Nat) : Pragma :=
  if cores < collapseThs || nparallel < 2 then .ompFor else .ompCollapse nparallel

/-- Source: `root._rebuild(pragmas=root.pragmas + as_tuple(parallel))` (line 304). -/
def rebuildRoot (p : Pragma) : Nest → Nest
  | .leaf es => .leaf es
  | .loop d r => .loop { d with pragmas := d.pragmas ++ [p] } r

/-- Properties of a nest's root loop (used by `v.is_Remainder`, line 316). -/
def rootProps : Nest → List IterProp
  | .leaf _ => []
  | .loop d _ => d.props

/-- Source: `FindSymbols('symbolics').visit(tree)`: the symbols referenced in the
nest's expressions. -/
def Nest.symbolsOf : Nest → List Symb
  | .leaf es => es.flatMap (fun e => e.syms)
  | .loop _ r => Nest.symbolsOf r

/-- Insertion into a lexicographically sorted list of names. -/
def insSorted (s : String) : List String → List String
  | [] => [s]
  | t :: ts => if s ≤ t then s :: t :: ts else t :: insSorted s ts

/-- Source: `sorted(...)` over strings. -/
def sortStrings (l : List String) : List String := l.foldr insSorted []

/-- Source: `('private(%s)' % ','.join(pvt)) if pvt else ''` (line 311). -/
def pvtClause (names : List String) : String :=
  if names.isEmpty then "" else "private(" ++ String.intercalate "," names ++ ")"

/-- The nests of a tree that have OpenMP candidates (`if not candidates:
continue`, lines 289-291). -/
def isCandidateNest : ONode → Option Nest
  | .nest n => if (candidatesOf n).isEmpty then none else some n
  | _ => none

/-- Outer loops of a region's body, for stating what ends up inside it. -/
def regionLoopsOf : ONode → List Nest
  | .region _ _ ls => ls
  | _ => []

/-- Whether a node is a parallel-region Block. -/
def isRegion : ONode → Bool
  | .region _ _ _ => true
  | _ => false

/-- Whether a top-level node is a nest whose root loop carries the
remainder property. -/
def isRemainderNest : ONode → Bool
  | .nest n => decide (IterProp.remainder ∈ rootProps n)
  | _ => false

/-- The final mapper of `_ompize` (lines 282, 304, 314-316) as applied by
the Transformer to a top-level node: denormal markers are mapped to None
(dropped), a nest root with candidates is mapped to None when its root is
remainder-marked (`mapper[k] = None if v.is_Remainder else par_region`)
and to the shared region `reg` otherwise, and any other node passes
through unchanged. -/
def ompizeMapper (reg : ONode) : ONode → Option ONode
  | .denorm => none
  | .region p m ls => some (.region p m ls)
  | .nest n =>
      if (candidatesOf n).isEmpty then some (.nest n)
      else if decide (IterProp.remainder ∈ rootProps n) then none
      else some reg

/-- The parallel-region Block of `_ompize` for one tree (lines 309-313):
private clause from the sorted, deduplicated stack-resident symbol names
of the candidate nests; body = denormal markers + all rebuilt candidate
roots, each decorated with its parallel/collapse pragma. -/
def ompizeRegion (cores collapseThs : Nat) (roots : List ONode) : ONode :=
  ONode.region
    (pvtClause (sortStrings
      (((roots.filterMap isCandidateNest).flatMap (fun n =>
          (n.symbolsOf.filter (fun s => s.memStack)).map
            (fun s => s.name))).dedup)))
    ((roots.filter (fun r => decide (r = ONode.denorm))).length)
    ((roots.filterMap isCandidateNest).map (fun n =>
      rebuildRoot (ompPragma cores collapseThs (candidatesOf n).length) n))

/-- Source: `_ompize` on one tree whose top level is `roots` (lines 277-322): the
Transformer applies the final mapper to every top-level node.  (The source
collects denormal markers from all of `state.nodes`; for the single-tree
model they coincide with this tree's markers.) -/
def ompizeNode (cores collapseThs : Nat) (roots : List ONode) : List ONode :=
  roots.filterMap (ompizeMapper (ompizeRegion cores collapseThs roots))

/-- C3 counterexample input: a parallel non-remainder nest over `a` and a
parallel nest over `r` whose root carries the remainder property. -/
def c3LoopA : IterData :=
  { dim := "a", start := .lit 0, stop := .lit 8, step := .lit 1,
    off0 := 0, off1 := 0, dimSize := some 8, props := [.parallel], pragmas := [] }

/-- The remainder-marked root loop of the C3 counterexample. -/
def c3LoopR : IterData :=
  { dim := "r", start := .lit 0, stop := .lit 8, step := .lit 1,
    off0 := 0, off1 := 0, dimSize := some 8,
    props := [.parallel, .remainder], pragmas := [] }

/-- The two-top-level-nest input tree of the C3 counterexample. -/
def c3Roots : List ONode :=
  [.nest (.loop c3LoopA (.leaf [{ id := 0, syms := [] }])),
   .nest (.loop c3LoopR (.leaf [{ id := 1, syms := [] }]))]

/-- A two-candidate nest (`i` over `j`, both parallel non-vectorizable)
for the C8 witness. -/
def c8Nest : Nest := .loop selI (.loop selJ (.leaf bodyLf))

-- ======================================================================
-- Part D: block-shape resolution (advanced.py lines 209-233)
-- ======================================================================

/-- The value bound to a blocked dimension in the resolved block shape:
the heuristic function object (`{k: heuristic for k in blocked}`), a
caller-supplied concrete size, or None (unset). -/
inductive BlockVal where
  | heuristicFn
  | conc (v : Int)
  | unsetVal
deriving DecidableEq

/-- The caller-supplied `blockshape` parameter: absent, a sequence, or a
scalar with no `len()`. -/
inductive BlockShapeParam where
  | absent
  | seqOf (l : List Int)
  | scalarOf (v : Int)
deriving DecidableEq

/-- Python truthiness of the parameter (`if not blockshape:` line 211):
None, an empty sequence and the scalar 0 are all falsy. -/
def falsyShape : BlockShapeParam → Bool
  | .absent => true
  | .seqOf l => l.isEmpty
  | .scalarOf v => v == 0

/-- Lines 209-233: resolve the block shape over the blocked dimensions
(the keys of the `blocked` dict, in insertion order).  Falsy parameter:
every dimension gets the heuristic.  A sequence: `zip(blocked, blockshape)`
takes pairs up to the shorter length (extra entries dropped), a
`dle_warning` diagnostic is recorded when the cardinalities differ, and
the dimensions beyond the sequence are set to None.  A scalar (`len()`
raises TypeError): the first blocked dimension gets the scalar, the rest
None, with no diagnostic.  Returns the per-dimension assignment and the
emitted diagnostics. -/
def resolveBlockshape (blocked : List String) (p : BlockShapeParam) :
    List (String × BlockVal) × List String :=
  if falsyShape p then
    (blocked.map (fun k => (k, BlockVal.heuristicFn)), [])
  else
    match p with
    | .absent => (blocked.map (fun k => (k, BlockVal.heuristicFn)), [])
    | .seqOf l =>
        let zipped := (blocked.zip l).map (fun kv => (kv.1, BlockVal.conc kv.2))
        let warns :=
          (if blocked.length < l.length then
              ["blockshape has more entries than blocked loops"] else []) ++
          (if l.length < blocked.length then
              ["blockshape has fewer entries than blocked loops"] else [])
        (zipped ++ (blocked.drop l.length).map (fun k => (k, BlockVal.unsetVal)),
          warns)
    | .scalarOf v =>
        match blocked with
        | [] => ([], [])
        | k0 :: rest =>
            ((k0, BlockVal.conc v) :: rest.map (fun k => (k, BlockVal.unsetVal)), [])

-- ======================================================================
-- Part E: the candidate gate of _loop_fission (advanced.py lines 47-93)
-- ======================================================================

/-- A function (array) referenced by an expression: its index dimensions
and shape; the last entries are the fastest-varying dimension and its
extent. -/
structure SFunc where
  fname : String
  indices : List String
  shape : List Int
deriving DecidableEq

/-- A statement in an innermost loop body: an Expression leaf (with its
referenced functions) or any other node kind. -/
inductive CandStmt where
  | sexpr (id : Nat) (functions : List SFunc)
  | otherNode (id : Nat)
deriving DecidableEq

/-- Source: `e.is_Expression` projection. -/
def stmtExpr : CandStmt → Option (Nat × List SFunc)
  | .sexpr i fs => some (i, fs)
  | .otherNode _ => none

/-- Source: `set.union(*[set(e.functions) for e in expressions])` (line 65): the
deduplicated union of the referenced functions.  (Python set order is
arbitrary; first-occurrence order is one refinement of it, and the skip
decision below is order-independent.) -/
def dedupUnion (exprs : List (Nat × List SFunc)) : List SFunc :=
  (exprs.flatMap (fun e => e.2)).dedup

/-- Source: `grouper(rebuilt, n)` from devito.tools: chunks of size `n`, last one
possibly shorter (fuel-based structural recursion). -/
def chunkListAux : Nat → Nat → List Nat → List (List Nat)
  | 0, _, _ => []
  | _, _, [] => []
  | Nat.succ fuel, n, l =>
      if n = 0 then [] else l.take n :: chunkListAux fuel n (l.drop n)

/-- Source: `grouper` entry point. -/
def chunkList (n : Nat) (l : List Nat) : List (List Nat) :=
  chunkListAux l.length n l

/-- Result of a successful fission of one candidate: the trailing
dimension and extent used for scalar promotion (both from the *first*
function of the union), and the statement groups. -/
structure FissionResult where
  usedDim : Option String
  usedSize : Option Int
  groups : List (List Nat)
deriving DecidableEq

/-- The per-candidate decision of `_loop_fission` (lines 47-93) for the
innermost iteration of a tree of depth `nestDepth` with body `nodes`:
`none` means the candidate is skipped and its subtree left unchanged.
Gates in source order: tree depth > 1; enough expressions
(`thresholds['max_fission']`); all body statements are expressions; a
non-empty function union and non-empty expression list; and
`any(dim != i.indices[-1] for i in functions)` — only the trailing
*dimension* is compared, the trailing extent is not. -/
def loopFissionCandidate (maxFissionThs minFissionThs : Nat) (nestDepth : Nat)
    (nodes : List CandStmt) : Option FissionResult :=
  if nestDepth ≤ 1 then none
  else if (nodes.filterMap stmtExpr).length < maxFissionThs then none
  else if (nodes.filterMap stmtExpr).length ≠ nodes.length then none
  else
    match dedupUnion (nodes.filterMap stmtExpr) with
    | [] => none
    | handle :: rest =>
        if (handle :: rest).any
            (fun f => f.indices.getLast? ≠ handle.indices.getLast?) then none
        else some
          { usedDim := handle.indices.getLast?,
            usedSize := handle.shape.getLast?,
            groups := chunkList minFissionThs
              ((nodes.filterMap stmtExpr).map (fun e => e.1)) }

/-- First function of the C5 counterexample: trailing dimension `y`,
trailing extent 4. -/
def fCexA : SFunc := { fname := "u", indices := ["x", "y"], shape := [10, 4] }

/-- Second function of the C5 counterexample: same trailing dimension `y`,
different trailing extent 8. -/
def fCexB : SFunc := { fname := "v", indices := ["z", "y"], shape := [10, 8] }

/-- Candidate body whose two expressions reference functions with equal
trailing dimension but mixed trailing extents. -/
def fissionCexBody : List CandStmt := [.sexpr 0 [fCexA], .sexpr 1 [fCexB]]

/-- Functions with different trailing dimensions, for the C5 witness. -/
def fWitA : SFunc := { fname := "u", indices := ["x"], shape := [10] }

/-- Second C5-witness function, trailing dimension `y`. -/
def fWitB : SFunc := { fname := "v", indices := ["y"], shape := [10] }

/-- Candidate body mixing trailing dimensions (skipped by the pass). -/
def fissionWitBody : List CandStmt := [.sexpr 0 [fWitA], .sexpr 1 [fWitB]]

-- ======================================================================
-- Part F: feasibility segment of _padding (advanced.py lines 346-372)
-- ======================================================================

/-- A written array symbol: name and shape. -/
structure PFunc where
  pname : String
  shape : List Int
deriving DecidableEq

/-- An Expression of the padding pass: output function and dtype. -/
structure PExpr where
  outF : PFunc
  dtype : String
deriving DecidableEq

/-- Source: `FindSymbols('symbolics-writes')`: the written functions of the tree
(deduplicated, first-occurrence order). -/
def paddingWrites (exprs : List PExpr) : List PFunc :=
  (exprs.map (fun e => e.outF)).dedup

/-- Source: `max([i.shape for i in handle], key=len)`: Python `max` keeps the
first element of maximal length. -/
def maxByLen (ls : List (List Int)) : Option (List Int) :=
  ls.foldl (fun acc s =>
    match acc with
    | none => some s
    | some a => if s.length > a.length then some s else acc) none

/-- Source: `candidates = [i for i in handle if i.shape[-1] == shape[-1]]`
(line 357). -/
def paddingCandidates (exprs : List PExpr) : List PFunc :=
  match maxByLen ((paddingWrites exprs).map (fun f => f.shape)) with
  | none => []
  | some shape =>
      if shape.isEmpty then []
      else (paddingWrites exprs).filter
        (fun f => decide (f.shape.getLast? = shape.getLast?))

/-- Source: `exprs = [e for e in exprs if e.output_function in candidates]`
(line 364). -/
def paddingWriters (exprs : List PExpr) : List PExpr :=
  exprs.filter (fun e => decide (e.outF ∈ paddingCandidates exprs))

/-- Modelled from the spec (devito.tools.roundm is not under src/): round
`x` up to the next multiple of `y` (spec section 4.6). -/
def roundm (x y : Int) : Int := if x % y = 0 then x else x + y - x % y

/-- Outcome of the feasibility segment for one tree. -/
inductive PadOutcome where
  | skipped
  | planned (simdItems : Int) (padded : List (PFunc × List Int))
deriving DecidableEq

/-- The feasibility segment of `_padding` for one tree (lines 346-381):
heuristic bail-outs return `ok skipped`; the two `assert` statements
surface as `error`; otherwise the padded shadow shapes are planned.
`simdTable` models `get_simd_items` (a dtype-indexed lookup that may
fail), `fallbackItems` the AVX512-based fallback of lines 370-372. -/
def paddingCheck (simdTable : List (String × Int)) (fallbackItems : Int)
    (exprs : List PExpr) : Except String PadOutcome :=
  if (paddingWrites exprs).isEmpty then .ok .skipped else
  match maxByLen ((paddingWrites exprs).map (fun f => f.shape)) with
  | none => .ok .skipped
  | some shape =>
      if shape.isEmpty then .ok .skipped else
      if (paddingCandidates exprs).isEmpty then .ok .skipped else
      match h : paddingWriters exprs with
      | [] => .error "assert len(exprs) > 0 failed"
      | e0 :: es =>
          if (e0 :: es).all (fun e => decide (e.dtype = e0.dtype)) then
            let simd := ((simdTable.lookup e0.dtype).getD fallbackItems)
            .ok (.planned simd ((paddingCandidates exprs).map (fun f =>
              (f, f.shape.dropLast ++
                [roundm ((f.shape.getLast?).getD 0) simd]))))
          else .error "assert all(e.dtype == dtype for e in exprs) failed"

/-- First written array of the C6 counterexample (dtype float32). -/
def padU : PFunc := { pname := "u", shape := [4] }

/-- Second written array of the C6 counterexample (dtype float64), same
rank and trailing extent. -/
def padV : PFunc := { pname := "v", shape := [4] }

/-- Expressions writing two same-shape arrays with differing dtypes. -/
def padCexExprs : List PExpr :=
  [{ outF := padU, dtype := "float32" }, { outF := padV, dtype := "float64" }]

/-- Expressions writing two same-shape arrays with one dtype (C6 witness). -/
def padWitExprs : List PExpr :=
  [{ outF := padU, dtype := "float32" }, { outF := padV, dtype := "float32" }]

-- ======================================================================
-- Part G: DevitoCustomRewriter.__init__ (advanced.py lines 431-451)
-- ======================================================================

/-- Source: `passes.split(',')` on the character level (Python `str.split`). -/
def splitCommaAux : List Char → List Char → List String
  | [], acc => [String.mk acc.reverse]
  | c :: cs, acc =>
      if c = ',' then String.mk acc.reverse :: splitCommaAux cs []
      else splitCommaAux cs (c :: acc)

/-- Source: `passes.split(',')`. -/
def splitComma (s : String) : List String := splitCommaAux s.toList []

/-- The keys of `DevitoCustomRewriter.passes_mapper` (lines 433-437). -/
def passesRegistry : List String := ["fission", "padding", "split"]

/-- The `passes` argument: a string, or any non-string object (on which
`.split` raises AttributeError). -/
inductive PassesInput where
  | strArg (s : String)
  | nonStrArg
deriving DecidableEq

/-- Source: `DevitoCustomRewriter.__init__` (lines 439-447): a non-string input
raises DLEException (AttributeError caught); a pass name outside
`passes_mapper` raises DLEException; otherwise construction succeeds with
the validated pass-name list. -/
def customRewriterInit (p : PassesInput) : Except String (List String) :=
  match p with
  | .nonStrArg => .error "DLEException"
  | .strArg s =>
      let passes := splitComma s
      if passes.all (fun i => decide (i ∈ passesRegistry)) then .ok passes
      else .error "DLEException"

/-- Running the custom rewriter: the pipeline (whatever its semantics,
taken as a parameter) executes only after construction succeeded, so a
construction error yields no transformed trees. -/
def customRun (pipeline : List String → List Nest → List Nest)
    (p : PassesInput) (trees : List Nest) : Except String (List Nest) :=
  match customRewriterInit p with
  | .error e => .error e
  | .ok passes => .ok (pipeline passes trees)

-- ======================================================================
-- Theorems
-- ======================================================================

lemma interFinish_facts (d : BlockedDim) (h1 : 0 < d.bsize)
    (h3 : d.start % d.bsize = d.off1 % d.bsize) :
    (interFinish d - d.start) % d.bsize = 0 ∧ interFinish d ≤ d.stop ∧
      (d.start ≤ d.stop → d.start ≤ interFinish d) := by
  have e1 : (d.stop - d.off1) % d.bsize = (d.stop - d.start) % d.bsize := by
    conv_lhs => rw [Int.sub_emod]
    rw [← h3, ← Int.sub_emod]
  have hem := Int.ediv_add_emod (d.stop - d.start) d.bsize
  have hmn : 0 ≤ (d.stop - d.start) % d.bsize := Int.emod_nonneg _ (by omega)
  have hml : (d.stop - d.start) % d.bsize < d.bsize := Int.emod_lt_of_pos _ h1
  refine ⟨?_, ?_, ?_⟩
  · have e2 : interFinish d - d.start =
        d.bsize * ((d.stop - d.start) / d.bsize) := by
      simp only [interFinish, e1]; omega
    rw [e2]; exact Int.mul_emod_right _ _
  · simp only [interFinish, e1]; omega
  · intro h2
    have hq : 0 ≤ (d.stop - d.start) / d.bsize := Int.ediv_nonneg (by omega) (by omega)
    have hq0 : 0 ≤ d.bsize * ((d.stop - d.start) / d.bsize) :=
      mul_nonneg (by omega) hq
    simp only [interFinish, e1]; omega

lemma blockedPts_iff (d : BlockedDim) (h1 : 0 < d.bsize)
    (h3 : d.start % d.bsize = d.off1 % d.bsize) (x : Int) :
    blockedPts d x ↔ (d.start ≤ x ∧ x < interFinish d) := by
  have hfe := (interFinish_facts d h1 h3).1
  simp only [blockedPts, interVals]
  constructor
  · rintro ⟨b, ⟨hsb, hbF, hbm⟩, hbx, hxb⟩
    refine ⟨le_trans hsb hbx, ?_⟩
    have h4 : (interFinish d - b) % d.bsize = 0 := by
      have e : interFinish d - b = (interFinish d - d.start) - (b - d.start) := by
        ring
      rw [e, Int.sub_emod, hfe, hbm]
      simp
    by_contra hlt
    push_neg at hlt
    have h5 : (interFinish d - b) % d.bsize = interFinish d - b :=
      Int.emod_eq_of_lt (by omega) (by omega)
    omega
  · rintro ⟨hsx, hxF⟩
    have hem := Int.ediv_add_emod (x - d.start) d.bsize
    have hmn : 0 ≤ (x - d.start) % d.bsize := Int.emod_nonneg _ (by omega)
    have hml : (x - d.start) % d.bsize < d.bsize := Int.emod_lt_of_pos _ h1
    have hq : 0 ≤ (x - d.start) / d.bsize := Int.ediv_nonneg (by omega) (by omega)
    have hq0 : 0 ≤ d.bsize * ((x - d.start) / d.bsize) := mul_nonneg (by omega) hq
    refine ⟨x - (x - d.start) % d.bsize, ⟨by omega, by omega, ?_⟩, by omega, by omega⟩
    have e : x - (x - d.start) % d.bsize - d.start =
        d.bsize * ((x - d.start) / d.bsize) := by omega
    rw [e]; exact Int.mul_emod_right _ _

/-- Claim C1 (amended): for a blocked nest whose selected dimensions all have
a positive block size, a nonempty-or-degenerate domain (start ≤ stop), and a
start congruent to the end offset modulo the block size (as holds for the
standard zero-offset or symmetric-halo loops), the index sets executed by the
main blocked tree (subset ∅) and the 2^k - 1 remainder trees cover the full
Cartesian domain exactly, and no point is executed by two distinct trees —
regardless of whether any extent is an exact multiple of its block size. -/
theorem loop_blocking_cover_disjoint {k : Nat} (ds : Fin k → BlockedDim)
    (H : ∀ i, 0 < (ds i).bsize ∧ (ds i).start ≤ (ds i).stop ∧
        (ds i).start % (ds i).bsize = (ds i).off1 % (ds i).bsize) :
    (∀ x : Fin k → Int,
        (∃ S : Finset (Fin k), treeExec ds S x) ↔ ∀ i, domainPts (ds i) (x i)) ∧
    (∀ (S T : Finset (Fin k)) (x : Fin k → Int),
        treeExec ds S x → treeExec ds T x → S = T) := by
  have hb : ∀ i, 0 < (ds i).bsize := fun i => (H i).1
  have hd : ∀ i, (ds i).start ≤ (ds i).stop := fun i => (H i).2.1
  have hc : ∀ i, (ds i).start % (ds i).bsize = (ds i).off1 % (ds i).bsize :=
    fun i => (H i).2.2
  constructor
  · intro x
    constructor
    · rintro ⟨S, hS⟩ i
      have h := hS i
      by_cases hi : i ∈ S
      · rw [if_pos hi] at h
        have hF := (interFinish_facts (ds i) (hb i) (hc i)).2.2 (hd i)
        exact ⟨le_trans hF h.1, h.2⟩
      · rw [if_neg hi] at h
        rw [blockedPts_iff (ds i) (hb i) (hc i)] at h
        have hF := (interFinish_facts (ds i) (hb i) (hc i)).2.1
        exact ⟨h.1, lt_of_lt_of_le h.2 hF⟩
    · intro hx
      refine ⟨Finset.univ.filter (fun i => interFinish (ds i) ≤ x i), ?_⟩
      intro i
      by_cases hi : interFinish (ds i) ≤ x i
      · rw [if_pos (by simp [hi])]
        exact ⟨hi, (hx i).2⟩
      · rw [if_neg (by simp [hi])]
        rw [blockedPts_iff (ds i) (hb i) (hc i)]
        exact ⟨(hx i).1, by omega⟩
  · intro S T x hS hT
    ext i
    have h1 := hS i
    have h2 := hT i
    constructor
    · intro hiS
      by_contra hiT
      rw [if_pos hiS] at h1
      rw [if_neg hiT] at h2
      rw [blockedPts_iff (ds i) (hb i) (hc i)] at h2
      have := h1.1
      have := h2.2
      omega
    · intro hiT
      by_contra hiS
      rw [if_neg hiS] at h1
      rw [if_pos hiT] at h2
      rw [blockedPts_iff (ds i) (hb i) (hc i)] at h1
      have := h1.2
      have := h2.1
      omega

/-- Claim C1 counterexample: for the nest with limits `(0, 5, 1)`, offsets
`(0, 1)` (a legal asymmetric stencil halo) and block size 2, the point 3 is
executed both by the main blocked tree (subset ∅: inter-block finish is
`4 - ((4 - 1) % 2) = 3`, so the block starting at 2 covers `[2, 4)`) and by
the remainder tree for the subset containing the dimension (`[3, 4)`), so
the no-double-execution part of the claim as stated is false. -/
theorem loop_blocking_overlap_cex :
    treeExec (fun _ : Fin 1 => cexDim) ∅ (fun _ => 3) ∧
    treeExec (fun _ : Fin 1 => cexDim) {0} (fun _ => 3) ∧
    (∅ : Finset (Fin 1)) ≠ {0} := by
  refine ⟨?_, ?_, by decide⟩
  · intro i
    rw [if_neg (Finset.not_mem_empty i)]
    show blockedPts cexDim 3
    exact ⟨2, ⟨by decide, by decide, by decide⟩, by decide, by decide⟩
  · intro i
    rw [if_pos (show i ∈ ({0} : Finset (Fin 1)) by fin_cases i <;> decide)]
    show remainderPts cexDim 3
    exact ⟨by decide, by decide⟩

/-- Witness for the amended C1 at a concrete instance: one dimension with
start 2, stop 9, end offset 2, block size 3 (extent 7 is not a multiple
of 3). -/
theorem loop_blocking_cover_disjoint_wit :
    (∀ i : Fin 1, 0 < witDim.bsize ∧ witDim.start ≤ witDim.stop ∧
        witDim.start % witDim.bsize = witDim.off1 % witDim.bsize) ∧
    ((∀ x : Fin 1 → Int,
        (∃ S : Finset (Fin 1), treeExec (fun _ => witDim) S x) ↔
          ∀ i, domainPts witDim (x i)) ∧
     (∀ (S T : Finset (Fin 1)) (x : Fin 1 → Int),
        treeExec (fun _ => witDim) S x → treeExec (fun _ => witDim) T x → S = T)) :=
  ⟨by decide, loop_blocking_cover_disjoint (fun _ => witDim) (by decide)⟩

-- ----------------------------------------------------------------------
-- Helper lemmas for the tree model
-- ----------------------------------------------------------------------

lemma loops_composeNest (ls : List IterData) (t : Nest) :
    (composeNest ls t).loops = ls ++ t.loops := by
  induction ls with
  | nil => rfl
  | cons d ds ih => simp [composeNest, Nest.loops, ih]

lemma belowDim_composeNest (pre : List IterData) (d : IterData)
    (post : List IterData) (t : Nest) (h : ∀ e ∈ pre, e.dim ≠ d.dim) :
    (composeNest (pre ++ d :: post) t).belowDim d.dim = some (composeNest post t) := by
  induction pre with
  | nil => simp [composeNest, Nest.belowDim]
  | cons e es ih =>
      have he : e.dim ≠ d.dim := h e (List.mem_cons_self e es)
      simp only [List.cons_append, composeNest, Nest.belowDim]
      rw [if_neg he]
      exact ih (fun x hx => h x (List.mem_cons_of_mem _ hx))

lemma findLoop_composeNest (ls : List IterData) (t : Nest) (dn : String)
    (h : ∀ e ∈ ls, e.dim ≠ dn) :
    (composeNest ls t).findLoop dn = t.findLoop dn := by
  induction ls with
  | nil => rfl
  | cons e es ih =>
      simp only [composeNest, Nest.findLoop]
      rw [if_neg (h e (List.mem_cons_self e es))]
      exact ih (fun x hx => h x (List.mem_cons_of_mem _ hx))

lemma selectBlockable_sublist (ex : Bool) (n : Nest) :
    List.Sublist (selectBlockable ex n) n.loops := by
  rw [selectBlockable]
  cases ex with
  | false => simpa using List.filter_sublist _
  | true => simpa using (List.filter_sublist _).trans (List.filter_sublist _)

lemma blockNest_eq (ex : Bool) (tagIdx : Nat) (n : Nest) (lastIt : IterData)
    (sub : Nest) (h1 : (selectBlockable ex n).getLast? = some lastIt)
    (h2 : n.belowDim lastIt.dim = some sub) :
    blockNest ex tagIdx n = some (blockedTreeOf tagIdx (selectBlockable ex n) sub ::
      (remainderSubsets ((selectBlockable ex n).map (fun d => d.dim))).map
        (remainderTreeOf tagIdx (selectBlockable ex n) sub)) := by
  unfold blockNest
  simp only [h1, h2]

lemma list_range_map_sum (f : Nat → Nat) (k : Nat) :
    ((List.range k).map f).sum = ∑ i ∈ Finset.range k, f i := by
  induction k with
  | zero => simp
  | succ n ih =>
      rw [List.range_succ, List.map_append, List.sum_append,
        Finset.sum_range_succ, ih]
      simp

lemma length_remainderSubsets (dims : List String) :
    (remainderSubsets dims).length = 2 ^ dims.length - 1 := by
  rw [remainderSubsets, List.length_flatMap]
  simp only [Function.comp_def]
  have e1 : (List.map (fun n => (List.sublistsLen (n + 1) dims).length)
      (List.range dims.length)).sum
      = ∑ i ∈ Finset.range dims.length, Nat.choose dims.length (i + 1) := by
    rw [← list_range_map_sum]
    congr 1
    exact List.map_congr_left (fun n _ => List.length_sublistsLen (n + 1) dims)
  rw [e1]
  have e2 := Finset.sum_range_succ' (fun i => Nat.choose dims.length i) dims.length
  rw [Nat.sum_range_choose] at e2
  simp only [Nat.choose_zero_right] at e2
  omega

lemma mem_remainderSubsets (dims : List String) (c : List String) :
    c ∈ remainderSubsets dims ↔ (List.Sublist c dims ∧ c ≠ []) := by
  rw [remainderSubsets, List.mem_flatMap]
  constructor
  · rintro ⟨n, _, hc⟩
    obtain ⟨hsub, hlen⟩ := List.mem_sublistsLen.1 hc
    refine ⟨hsub, ?_⟩
    intro h
    rw [h] at hlen
    simp at hlen
  · rintro ⟨hsub, hne⟩
    have h2 : 1 ≤ c.length := by
      cases c with
      | nil => exact absurd rfl hne
      | cons a l => simp
    refine ⟨c.length - 1, ?_, ?_⟩
    · rw [List.mem_range]
      have h1 : c.length ≤ dims.length := hsub.length_le
      omega
    · rw [List.mem_sublistsLen]
      exact ⟨hsub, by omega⟩

lemma nodup_remainderSubsets (dims : List String) (h : dims.Nodup) :
    (remainderSubsets dims).Nodup := by
  rw [remainderSubsets, List.nodup_flatMap]
  constructor
  · intro n _
    exact List.nodup_sublistsLen _ h
  · refine (List.pairwise_lt_range dims.length).imp ?_
    intro a b hab
    intro c hca hcb
    have h1 := (List.mem_sublistsLen.1 hca).2
    have h2 := (List.mem_sublistsLen.1 hcb).2
    omega

lemma remainderTreeOf_eq (tagIdx : Nat) (iters : List IterData) (sub : Nest)
    (c : List String) :
    remainderTreeOf tagIdx iters sub c =
      composeNest
        ((iters.filter (fun d => decide (d.dim ∉ c))).map
            (fun d => addRemainderProp (interBlockOf d)) ++
          iters.map (fun d => withRemainderProps tagIdx
            (if d.dim ∈ c then remainderOf d else intraBlockOf tagIdx d))) sub := by
  rw [remainderTreeOf]
  congr 1
  congr 1
  · rw [List.zip_map', List.filter_map, List.map_map]
    rfl
  · rw [List.zip_map', List.map_map]
    rfl

lemma composeNest_append (l1 l2 : List IterData) (t : Nest) :
    composeNest (l1 ++ l2) t = composeNest l1 (composeNest l2 t) := by
  induction l1 with
  | nil => rfl
  | cons d ds ih => simp [composeNest, ih]

lemma findLoop_composeNest_inner (post : List IterData) (inner : IterData)
    (t : Nest) (h : ∀ e ∈ post, e.dim ≠ inner.dim) :
    (composeNest (post ++ [inner]) t).findLoop inner.dim = some inner := by
  induction post with
  | nil => simp [composeNest, Nest.findLoop]
  | cons e es ih =>
      simp only [List.cons_append, composeNest, Nest.findLoop]
      rw [if_neg (h e (List.mem_cons_self e es))]
      exact ih (fun x hx => h x (List.mem_cons_of_mem _ hx))

lemma findLoop_blockTrees (tagIdx : Nat) (selList : List IterData) (sub : Nest)
    (dn : String) (hinter : ∀ d ∈ selList, blockDimName d.dim ≠ dn)
    (hintra : ∀ d ∈ selList, d.dim ≠ dn) :
    (blockedTreeOf tagIdx selList sub).findLoop dn = sub.findLoop dn ∧
    ∀ c, (remainderTreeOf tagIdx selList sub c).findLoop dn = sub.findLoop dn := by
  constructor
  · rw [blockedTreeOf]
    apply findLoop_composeNest
    intro e he
    rcases List.mem_append.1 he with h | h
    · obtain ⟨d, hd, rfl⟩ := List.mem_map.1 h
      exact hinter d hd
    · obtain ⟨d, hd, rfl⟩ := List.mem_map.1 h
      exact hintra d hd
  · intro c
    rw [remainderTreeOf_eq]
    apply findLoop_composeNest
    intro e he
    rcases List.mem_append.1 he with h | h
    · obtain ⟨d, hd, rfl⟩ := List.mem_map.1 h
      exact hinter d (List.mem_of_mem_filter hd)
    · obtain ⟨d, hd, rfl⟩ := List.mem_map.1 h
      by_cases hdc : d.dim ∈ c
      · rw [if_pos hdc]
        exact hintra d hd
      · rw [if_neg hdc]
        exact hintra d hd

/-- Claim C2: when the blocking pass selects `k` dimensions in a (perfect)
nest, it replaces the selected root with the sequence of one main blocked
tree followed by exactly `2^k - 1` remainder trees — one per non-empty
subset of the selected dimensions, each subset appearing exactly once —
where the remainder tree of subset `c` uses the unit-step remainder loop
for the dimensions in `c` and the inter-block/intra-block pair for the
dimensions not in `c` (all marked with the remainder property), over the
original subtree below the last selected loop. -/
theorem blocking_remainder_tree_count_structure (exclude : Bool) (tagIdx : Nat)
    (chain : List IterData) (lf : List LeafExpr)
    (hnd : (chain.map (fun d => d.dim)).Nodup)
    (hne : selectBlockable exclude (composeNest chain (Nest.leaf lf)) ≠ []) :
    ∃ sel sub trees,
      sel = selectBlockable exclude (composeNest chain (Nest.leaf lf)) ∧
      blockNest exclude tagIdx (composeNest chain (Nest.leaf lf)) = some trees ∧
      trees = blockedTreeOf tagIdx sel sub ::
          (remainderSubsets (sel.map (fun d => d.dim))).map
            (remainderTreeOf tagIdx sel sub) ∧
      trees.length = 2 ^ sel.length ∧
      ((remainderSubsets (sel.map (fun d => d.dim))).map
          (remainderTreeOf tagIdx sel sub)).length = 2 ^ sel.length - 1 ∧
      (∀ c : List String,
          c ∈ remainderSubsets (sel.map (fun d => d.dim)) ↔
            (List.Sublist c (sel.map (fun d => d.dim)) ∧ c ≠ [])) ∧
      (remainderSubsets (sel.map (fun d => d.dim))).Nodup ∧
      (∀ c ∈ remainderSubsets (sel.map (fun d => d.dim)),
          remainderTreeOf tagIdx sel sub c =
            composeNest
              ((sel.filter (fun d => decide (d.dim ∉ c))).map
                  (fun d => addRemainderProp (interBlockOf d)) ++
                sel.map (fun d => withRemainderProps tagIdx
                  (if d.dim ∈ c then remainderOf d else intraBlockOf tagIdx d))) sub ∧
          (∀ d ∈ sel, d.dim ∈ c →
              (withRemainderProps tagIdx (remainderOf d)).step = SExpr.lit 1 ∧
              IterProp.remainder ∈ (withRemainderProps tagIdx (remainderOf d)).props) ∧
          (∀ d ∈ sel, d.dim ∉ c →
              IterProp.remainder ∈ (addRemainderProp (interBlockOf d)).props ∧
              IterProp.remainder ∈
                (withRemainderProps tagIdx (intraBlockOf tagIdx d)).props)) := by
  have hselsub : List.Sublist
      (selectBlockable exclude (composeNest chain (Nest.leaf lf))) chain := by
    have h := selectBlockable_sublist exclude (composeNest chain (Nest.leaf lf))
    rw [loops_composeNest] at h
    simpa [Nest.loops] using h
  set sel := selectBlockable exclude (composeNest chain (Nest.leaf lf)) with hsel
  have hgl : sel.getLast? = some (sel.getLast hne) :=
    List.getLast?_eq_getLast sel hne
  have hmem : sel.getLast hne ∈ chain := hselsub.subset (List.getLast_mem hne)
  obtain ⟨pre, post, hchain⟩ := List.append_of_mem hmem
  have hfresh : ∀ e ∈ pre, e.dim ≠ (sel.getLast hne).dim := by
    intro e he heq
    have hnd' := hnd
    rw [hchain, List.map_append, List.map_cons, List.nodup_append] at hnd'
    exact hnd'.2.2 (List.mem_map_of_mem _ he)
      (by rw [heq]; exact List.mem_cons_self _ _)
  have hbelow : (composeNest chain (Nest.leaf lf)).belowDim
      (sel.getLast hne).dim = some (composeNest post (Nest.leaf lf)) := by
    rw [hchain]
    exact belowDim_composeNest pre _ post _ hfresh
  have hbn := blockNest_eq exclude tagIdx (composeNest chain (Nest.leaf lf))
    (sel.getLast hne) (composeNest post (Nest.leaf lf)) hgl hbelow
  rw [← hsel] at hbn
  have hdimsnd : (sel.map (fun d => d.dim)).Nodup :=
    hnd.sublist (hselsub.map (fun d => d.dim))
  have hlen : ((remainderSubsets (sel.map (fun d => d.dim))).map
      (remainderTreeOf tagIdx sel (composeNest post (Nest.leaf lf)))).length
      = 2 ^ sel.length - 1 := by
    rw [List.length_map, length_remainderSubsets, List.length_map]
  refine ⟨sel, composeNest post (Nest.leaf lf), _, rfl, hbn, rfl, ?_, hlen,
    fun c => mem_remainderSubsets _ c, nodup_remainderSubsets _ hdimsnd, ?_⟩
  · have h2 : 0 < 2 ^ sel.length := Nat.two_pow_pos _
    simp only [List.length_cons]
    omega
  · intro c _
    refine ⟨remainderTreeOf_eq tagIdx sel _ c, ?_, ?_⟩
    · intro d _ _
      exact ⟨rfl, by simp [withRemainderProps, remainderProps]⟩
    · intro d _ _
      constructor
      · simp [addRemainderProp]
      · simp [withRemainderProps, remainderProps]

/-- Witness for C2 at the 2-dimensional nest over `i` and `j` (one main
blocked tree plus `2^2 - 1 = 3` remainder trees). -/
theorem blocking_remainder_tree_count_structure_wit :
    (([selI, selJ].map (fun d => d.dim)).Nodup ∧
      selectBlockable true (composeNest [selI, selJ] (Nest.leaf bodyLf)) ≠ []) ∧
    (∃ sel sub trees,
      sel = selectBlockable true (composeNest [selI, selJ] (Nest.leaf bodyLf)) ∧
      blockNest true 0 (composeNest [selI, selJ] (Nest.leaf bodyLf)) = some trees ∧
      trees = blockedTreeOf 0 sel sub ::
          (remainderSubsets (sel.map (fun d => d.dim))).map
            (remainderTreeOf 0 sel sub) ∧
      trees.length = 2 ^ sel.length ∧
      ((remainderSubsets (sel.map (fun d => d.dim))).map
          (remainderTreeOf 0 sel sub)).length = 2 ^ sel.length - 1 ∧
      (∀ c : List String,
          c ∈ remainderSubsets (sel.map (fun d => d.dim)) ↔
            (List.Sublist c (sel.map (fun d => d.dim)) ∧ c ≠ [])) ∧
      (remainderSubsets (sel.map (fun d => d.dim))).Nodup ∧
      (∀ c ∈ remainderSubsets (sel.map (fun d => d.dim)),
          remainderTreeOf 0 sel sub c =
            composeNest
              ((sel.filter (fun d => decide (d.dim ∉ c))).map
                  (fun d => addRemainderProp (interBlockOf d)) ++
                sel.map (fun d => withRemainderProps 0
                  (if d.dim ∈ c then remainderOf d else intraBlockOf 0 d))) sub ∧
          (∀ d ∈ sel, d.dim ∈ c →
              (withRemainderProps 0 (remainderOf d)).step = SExpr.lit 1 ∧
              IterProp.remainder ∈ (withRemainderProps 0 (remainderOf d)).props) ∧
          (∀ d ∈ sel, d.dim ∉ c →
              IterProp.remainder ∈ (addRemainderProp (interBlockOf d)).props ∧
              IterProp.remainder ∈
                (withRemainderProps 0 (intraBlockOf 0 d)).props))) :=
  ⟨⟨by decide, by decide⟩,
    blocking_remainder_tree_count_structure true 0 [selI, selJ] bodyLf
      (by decide) (by decide)⟩

/-- Claim C4: with the exclude-innermost policy set and a nest whose
innermost loop is the only vectorizable (hence unselected) one, every tree
the blocking pass outputs — the main blocked tree and each remainder
tree — contains the innermost loop unchanged (same limits, step, offsets,
properties and pragmas). -/
theorem blocking_innermost_untouched (tagIdx : Nat) (outer : List IterData)
    (inner : IterData) (lf : List LeafExpr)
    (houtv : ∀ d ∈ outer, IterProp.vectorizable ∉ d.props)
    (hinv : IterProp.vectorizable ∈ inner.props)
    (hpar : ∃ d ∈ outer, IterProp.parallel ∈ d.props)
    (hnd : ((outer ++ [inner]).map (fun d => d.dim)).Nodup)
    (hfresh : ∀ d ∈ outer, blockDimName d.dim ≠ inner.dim) :
    ∃ trees,
      blockNest true tagIdx (composeNest (outer ++ [inner]) (Nest.leaf lf))
        = some trees ∧
      trees ≠ [] ∧
      ∀ t ∈ trees, t.findLoop inner.dim = some inner := by
  have hloops : (composeNest (outer ++ [inner]) (Nest.leaf lf)).loops
      = outer ++ [inner] := by
    rw [loops_composeNest]
    simp [Nest.loops]
  have hinnerNe : ∀ d ∈ outer, d.dim ≠ inner.dim := by
    intro d hd heq
    have hnd' := hnd
    rw [List.map_append, List.map_cons, List.nodup_append] at hnd'
    exact hnd'.2.2 (List.mem_map_of_mem _ hd) (by rw [heq]; simp)
  have hup : selectBlockable true (composeNest (outer ++ [inner]) (Nest.leaf lf))
      = outer.filter (fun d => decide (IterProp.parallel ∈ d.props)) := by
    rw [selectBlockable, hloops]
    simp only [if_true]
    rw [List.filter_append, List.filter_append]
    have hq : decide (IterProp.vectorizable ∉ inner.props) = false := by
      simp [hinv]
    have h1 : (([inner].filter (fun d => decide (IterProp.parallel ∈ d.props))).filter
        (fun d => decide (IterProp.vectorizable ∉ d.props))) = [] := by
      cases hp : decide (IterProp.parallel ∈ inner.props) <;>
        simp [List.filter_cons, hp, hq, hinv]
    rw [h1, List.append_nil]
    apply List.filter_eq_self.2
    intro d hd
    exact decide_eq_true (houtv d (List.mem_of_mem_filter hd))
  have hne' : outer.filter (fun d => decide (IterProp.parallel ∈ d.props)) ≠ [] := by
    obtain ⟨d0, hd0, hd0p⟩ := hpar
    exact List.ne_nil_of_mem (List.mem_filter.2 ⟨hd0, decide_eq_true hd0p⟩)
  set selList := outer.filter (fun d => decide (IterProp.parallel ∈ d.props))
    with hselList
  have hgl : (selectBlockable true
      (composeNest (outer ++ [inner]) (Nest.leaf lf))).getLast?
      = some (selList.getLast hne') := by
    rw [hup]
    exact List.getLast?_eq_getLast _ hne'
  have hmem : selList.getLast hne' ∈ outer :=
    List.mem_of_mem_filter (List.getLast_mem hne')
  obtain ⟨pre, post, houter⟩ := List.append_of_mem hmem
  have hchain : outer ++ [inner] = pre ++ selList.getLast hne' :: (post ++ [inner]) := by
    rw [houter]
    simp
  have hfresh2 : ∀ e ∈ pre, e.dim ≠ (selList.getLast hne').dim := by
    intro e he heq
    have hnd' := hnd
    rw [hchain, List.map_append, List.map_cons, List.nodup_append] at hnd'
    exact hnd'.2.2 (List.mem_map_of_mem _ he)
      (by rw [heq]; exact List.mem_cons_self _ _)
  have hbelow : (composeNest (outer ++ [inner]) (Nest.leaf lf)).belowDim
      (selList.getLast hne').dim
      = some (composeNest (post ++ [inner]) (Nest.leaf lf)) := by
    rw [show composeNest (outer ++ [inner]) (Nest.leaf lf)
        = composeNest (pre ++ selList.getLast hne' :: (post ++ [inner]))
            (Nest.leaf lf) by rw [← hchain]]
    exact belowDim_composeNest pre _ _ _ hfresh2
  have hbn := blockNest_eq true tagIdx (composeNest (outer ++ [inner]) (Nest.leaf lf))
    (selList.getLast hne') (composeNest (post ++ [inner]) (Nest.leaf lf)) hgl hbelow
  rw [hup] at hbn
  have hpost : ∀ e ∈ post, e.dim ≠ inner.dim := by
    intro e he
    exact hinnerNe e (by rw [houter]; exact List.mem_append_right _ (List.mem_cons_of_mem _ he))
  have hsubfind : (composeNest (post ++ [inner]) (Nest.leaf lf)).findLoop inner.dim
      = some inner := findLoop_composeNest_inner post inner _ hpost
  have hft := findLoop_blockTrees tagIdx selList
    (composeNest (post ++ [inner]) (Nest.leaf lf)) inner.dim
    (fun d hd => hfresh d (List.mem_of_mem_filter hd))
    (fun d hd => hinnerNe d (List.mem_of_mem_filter hd))
  refine ⟨_, hbn, by simp, ?_⟩
  intro t ht
  rcases List.mem_cons.1 ht with rfl | hmem2
  · rw [hft.1, hsubfind]
  · obtain ⟨c, _, rfl⟩ := List.mem_map.1 hmem2
    rw [hft.2 c, hsubfind]

/-- Witness for C4: nest `i, j` (parallel) over vectorizable `k`,
exclude-innermost on; the `k` loop appears unchanged in all four output
trees. -/
theorem blocking_innermost_untouched_wit :
    ((∀ d ∈ [selI, selJ], IterProp.vectorizable ∉ d.props) ∧
      IterProp.vectorizable ∈ vecK.props ∧
      (∃ d ∈ [selI, selJ], IterProp.parallel ∈ d.props) ∧
      (([selI, selJ] ++ [vecK]).map (fun d => d.dim)).Nodup ∧
      (∀ d ∈ [selI, selJ], blockDimName d.dim ≠ vecK.dim)) ∧
    (∃ trees,
      blockNest true 0 (composeNest ([selI, selJ] ++ [vecK]) (Nest.leaf bodyLf))
        = some trees ∧
      trees ≠ [] ∧
      ∀ t ∈ trees, t.findLoop vecK.dim = some vecK) :=
  ⟨⟨by decide, by decide, by decide, by decide, by decide⟩,
    blocking_innermost_untouched 0 [selI, selJ] vecK bodyLf
      (by decide) (by decide) (by decide) (by decide) (by decide)⟩

-- ----------------------------------------------------------------------
-- C3: remainder roots and the parallel region (_ompize)
-- ----------------------------------------------------------------------

/-- Claim C3 counterexample: on the two-nest tree `c3Roots` (one parallel
nest, one parallel nest whose root is remainder-marked), the output of the
OpenMP pass contains no remainder-rooted nest at top level — the remainder
root is dropped, not left outside the region — and the (single) parallel
region's body does contain a remainder-rooted loop, namely the rebuilt
remainder root.  Both halves of the claim as stated are therefore false. -/
theorem ompize_remainder_outside_cex :
    (¬ ∃ r ∈ ompizeNode 8 2 c3Roots, isRemainderNest r = true) ∧
    ¬ (∀ r ∈ ompizeNode 8 2 c3Roots, ∀ t ∈ regionLoopsOf r,
        IterProp.remainder ∉ rootProps t) := by
  constructor
  · decide
  · decide

/-- Claim C3 (amended): a selected root carrying the remainder property is
removed from its position in the tree (it does not survive at top level),
while its rebuilt, pragma-decorated copy is placed inside the shared
parallel region together with all other rebuilt selected roots; the
region itself appears in the output whenever some selected root is not
remainder-marked. -/
theorem ompize_remainder_into_region (cores ths : Nat) (roots : List ONode)
    (n : Nest) (hmem : ONode.nest n ∈ roots)
    (hc : ¬ (candidatesOf n).isEmpty)
    (hrem : IterProp.remainder ∈ rootProps n)
    (hnoreg : ∀ r ∈ roots, isRegion r = false) :
    (ompizeMapper (ompizeRegion cores ths roots) (ONode.nest n) = none) ∧
    (∀ o ∈ ompizeNode cores ths roots, o ≠ ONode.nest n) ∧
    (∀ o ∈ ompizeNode cores ths roots, isRegion o = true →
        rebuildRoot (ompPragma cores ths (candidatesOf n).length) n ∈
          regionLoopsOf o) ∧
    ((∃ m ∈ roots, ∃ nm, m = ONode.nest nm ∧ ¬ (candidatesOf nm).isEmpty ∧
        IterProp.remainder ∉ rootProps nm) →
      ∃ o ∈ ompizeNode cores ths roots, isRegion o = true) := by
  have hreb : rebuildRoot (ompPragma cores ths (candidatesOf n).length) n ∈
      regionLoopsOf (ompizeRegion cores ths roots) := by
    simp only [ompizeRegion, regionLoopsOf]
    apply List.mem_map_of_mem
    rw [List.mem_filterMap]
    exact ⟨ONode.nest n, hmem, by simp [isCandidateNest, hc]⟩
  refine ⟨?_, ?_, ?_, ?_⟩
  · rw [ompizeMapper, if_neg (by simpa using hc), if_pos (by simpa using hrem)]
  · intro o ho heq
    subst heq
    simp only [ompizeNode, List.mem_filterMap] at ho
    obtain ⟨r, hr, hfr⟩ := ho
    cases r with
    | denorm => simp [ompizeMapper] at hfr
    | region p m ls =>
        have := hnoreg _ hr
        simp [isRegion] at this
    | nest n' =>
        simp only [ompizeMapper] at hfr
        by_cases h1 : (candidatesOf n').isEmpty
        · rw [if_pos h1] at hfr
          have h2 : n' = n := ONode.nest.inj (Option.some.inj hfr)
          rw [h2] at h1
          exact hc h1
        · rw [if_neg h1] at hfr
          by_cases h2 : IterProp.remainder ∈ rootProps n'
          · rw [if_pos (by simpa using h2)] at hfr
            simp at hfr
          · rw [if_neg (by simpa using h2)] at hfr
            have h3 := Option.some.inj hfr
            rw [ompizeRegion] at h3
            simp at h3
  · intro o ho hregion
    simp only [ompizeNode, List.mem_filterMap] at ho
    obtain ⟨r, hr, hfr⟩ := ho
    cases r with
    | denorm => simp [ompizeMapper] at hfr
    | region p m ls =>
        have := hnoreg _ hr
        simp [isRegion] at this
    | nest n' =>
        simp only [ompizeMapper] at hfr
        by_cases h1 : (candidatesOf n').isEmpty
        · rw [if_pos h1] at hfr
          obtain rfl := Option.some.inj hfr
          simp [isRegion] at hregion
        · rw [if_neg h1] at hfr
          by_cases h2 : IterProp.remainder ∈ rootProps n'
          · rw [if_pos (by simpa using h2)] at hfr
            simp at hfr
          · rw [if_neg (by simpa using h2)] at hfr
            obtain rfl := Option.some.inj hfr
            exact hreb
  · rintro ⟨m, hm, nm, rfl, hcm, hremm⟩
    have h1 : ¬ ((candidatesOf nm).isEmpty = true) := by simpa using hcm
    have h2 : ¬ (decide (IterProp.remainder ∈ rootProps nm) = true) := by
      simpa using hremm
    refine ⟨ompizeRegion cores ths roots, ?_, rfl⟩
    simp only [ompizeNode, List.mem_filterMap]
    refine ⟨ONode.nest nm, hm, ?_⟩
    simp only [ompizeMapper, if_neg h1, if_neg h2]

/-- Witness for the amended C3 at the concrete tree `c3Roots`. -/
theorem ompize_remainder_into_region_wit :
    (ONode.nest (.loop c3LoopR (.leaf [{ id := 1, syms := [] }])) ∈ c3Roots ∧
      ¬ (candidatesOf (.loop c3LoopR (.leaf [{ id := 1, syms := [] }]))).isEmpty ∧
      IterProp.remainder ∈
        rootProps (.loop c3LoopR (.leaf [{ id := 1, syms := [] }])) ∧
      (∀ r ∈ c3Roots, isRegion r = false)) ∧
    ((ompizeMapper (ompizeRegion 8 2 c3Roots)
        (ONode.nest (.loop c3LoopR (.leaf [{ id := 1, syms := [] }]))) = none) ∧
     (∀ o ∈ ompizeNode 8 2 c3Roots,
        o ≠ ONode.nest (.loop c3LoopR (.leaf [{ id := 1, syms := [] }]))) ∧
     (∀ o ∈ ompizeNode 8 2 c3Roots, isRegion o = true →
        rebuildRoot (ompPragma 8 2 (candidatesOf
            (.loop c3LoopR (.leaf [{ id := 1, syms := [] }]))).length)
          (.loop c3LoopR (.leaf [{ id := 1, syms := [] }])) ∈ regionLoopsOf o) ∧
     ((∃ m ∈ c3Roots, ∃ nm, m = ONode.nest nm ∧ ¬ (candidatesOf nm).isEmpty ∧
          IterProp.remainder ∉ rootProps nm) →
        ∃ o ∈ ompizeNode 8 2 c3Roots, isRegion o = true)) :=
  ⟨⟨by decide, by decide, by decide, by decide⟩,
    ompize_remainder_into_region 8 2 c3Roots
      (.loop c3LoopR (.leaf [{ id := 1, syms := [] }]))
      (by decide) (by decide) (by decide) (by decide)⟩

-- ----------------------------------------------------------------------
-- C8: collapse pragma threshold (_ompize)
-- ----------------------------------------------------------------------

lemma ompPragma_cases (cores ths k : Nat) :
    (ompPragma cores ths k = Pragma.ompCollapse k ↔ (2 ≤ k ∧ ths ≤ cores)) ∧
    (¬ (2 ≤ k ∧ ths ≤ cores) → ompPragma cores ths k = Pragma.ompFor) := by
  rw [ompPragma]
  by_cases h1 : cores < ths
  · rw [if_pos (by simp [h1])]
    constructor
    · constructor
      · intro he
        simp at he
      · rintro ⟨_, h3⟩
        exact absurd h3 (by omega)
    · intro _
      rfl
  · by_cases h2 : k < 2
    · rw [if_pos (by simp [h2])]
      constructor
      · constructor
        · intro he
          simp at he
        · rintro ⟨h4, _⟩
          exact absurd h4 (by omega)
      · intro _
        rfl
    · rw [if_neg (by simp [h1, h2])]
      constructor
      · constructor
        · intro _
          exact ⟨by omega, by omega⟩
        · intro _
          rfl
      · intro hno
        exact absurd ⟨by omega, by omega⟩ hno

/-- Claim C8: for every nest the OpenMP pass processes (candidate prefix
non-empty), the pragma attached to the rebuilt selected root is the
collapse pragma if and only if the longest consecutive prefix of
parallel-but-not-vectorizable loops has length at least two and the
physical core count is at or above the collapse threshold; in every other
case it is the plain parallel-for pragma. -/
theorem ompize_collapse_threshold (cores ths : Nat) (n : Nest)
    (h : candidatesOf n ≠ []) :
    (∃ d r, n = Nest.loop d r ∧
        rebuildRoot (ompPragma cores ths (candidatesOf n).length) n =
          Nest.loop
            { d with pragmas :=
                d.pragmas ++ [ompPragma cores ths (candidatesOf n).length] } r) ∧
    (ompPragma cores ths (candidatesOf n).length =
        Pragma.ompCollapse (candidatesOf n).length ↔
      (2 ≤ (candidatesOf n).length ∧ ths ≤ cores)) ∧
    (¬ (2 ≤ (candidatesOf n).length ∧ ths ≤ cores) →
      ompPragma cores ths (candidatesOf n).length = Pragma.ompFor) := by
  refine ⟨?_, (ompPragma_cases cores ths (candidatesOf n).length).1,
    (ompPragma_cases cores ths (candidatesOf n).length).2⟩
  cases n with
  | leaf es => exact absurd rfl h
  | loop d r => exact ⟨d, r, rfl, rfl⟩

/-- Witness for C8 at the two-candidate nest `c8Nest` with 8 cores and
threshold 4: the collapse pragma is chosen. -/
theorem ompize_collapse_threshold_wit :
    (candidatesOf c8Nest ≠ [] ∧ 2 ≤ (candidatesOf c8Nest).length ∧ 4 ≤ 8) ∧
    ((∃ d r, c8Nest = Nest.loop d r ∧
        rebuildRoot (ompPragma 8 4 (candidatesOf c8Nest).length) c8Nest =
          Nest.loop
            { d with pragmas :=
                d.pragmas ++ [ompPragma 8 4 (candidatesOf c8Nest).length] } r) ∧
     (ompPragma 8 4 (candidatesOf c8Nest).length =
          Pragma.ompCollapse (candidatesOf c8Nest).length ↔
        (2 ≤ (candidatesOf c8Nest).length ∧ 4 ≤ 8)) ∧
     (¬ (2 ≤ (candidatesOf c8Nest).length ∧ 4 ≤ 8) →
        ompPragma 8 4 (candidatesOf c8Nest).length = Pragma.ompFor)) :=
  ⟨⟨by decide, by decide, by decide⟩,
    ompize_collapse_threshold 8 4 c8Nest (by decide)⟩

-- ----------------------------------------------------------------------
-- C5: the fission trailing-dimension gate
-- ----------------------------------------------------------------------

/-- Claim C5 counterexample: the candidate `fissionCexBody` references two
functions with the same trailing dimension `y` but different trailing
extents (4 and 8); the fission pass does not skip it — it transforms the
candidate, promoting with the first function's extent 4. -/
theorem fission_mixed_extent_cex :
    loopFissionCandidate 2 1 2 fissionCexBody =
      some { usedDim := some "y", usedSize := some 4, groups := [[0], [1]] } ∧
    fCexA.indices.getLast? = fCexB.indices.getLast? ∧
    fCexA.shape.getLast? ≠ fCexB.shape.getLast? :=
  ⟨by decide, by decide, by decide⟩

/-- Claim C5 (amended): the fission pass skips a candidate whenever the
referenced functions have mixed trailing dimensions; when all trailing
dimensions agree (and the other gates pass) it transforms the candidate —
even with mixed trailing extents — using the first union function's
trailing dimension and extent. -/
theorem fission_trailing_dim_gate (maxT minT depth : Nat)
    (nodes : List CandStmt) :
    (∀ f g, f ∈ dedupUnion (nodes.filterMap stmtExpr) →
        g ∈ dedupUnion (nodes.filterMap stmtExpr) →
        f.indices.getLast? ≠ g.indices.getLast? →
        loopFissionCandidate maxT minT depth nodes = none) ∧
    (∀ handle rest, dedupUnion (nodes.filterMap stmtExpr) = handle :: rest →
        1 < depth → maxT ≤ (nodes.filterMap stmtExpr).length →
        (nodes.filterMap stmtExpr).length = nodes.length →
        (∀ f ∈ dedupUnion (nodes.filterMap stmtExpr),
            f.indices.getLast? = handle.indices.getLast?) →
        loopFissionCandidate maxT minT depth nodes = some
          { usedDim := handle.indices.getLast?,
            usedSize := handle.shape.getLast?,
            groups := chunkList minT
              ((nodes.filterMap stmtExpr).map (fun e => e.1)) }) := by
  constructor
  · intro f g hf hg hfg
    unfold loopFissionCandidate
    by_cases hdep : depth ≤ 1
    · rw [if_pos hdep]
    · rw [if_neg hdep]
      by_cases hm1 : (nodes.filterMap stmtExpr).length < maxT
      · rw [if_pos hm1]
      · rw [if_neg hm1]
        by_cases hm2 : (nodes.filterMap stmtExpr).length ≠ nodes.length
        · rw [if_pos hm2]
        · rw [if_neg hm2]
          split
          · rfl
          · rename_i handle rest heq
            rw [heq] at hf hg
            rw [if_pos ?_]
            by_cases hfh : f.indices.getLast? = handle.indices.getLast?
            · exact List.any_eq_true.2 ⟨g, hg, by
                simp only [decide_eq_true_iff]
                rw [← hfh]
                exact fun he => hfg he.symm⟩
            · exact List.any_eq_true.2 ⟨f, hf, by
                simp only [decide_eq_true_iff]
                exact hfh⟩
  · intro handle rest hU hd hmax hlen hall
    unfold loopFissionCandidate
    rw [if_neg (by omega), if_neg (by omega), if_neg (by omega)]
    split
    · rename_i heq
      rw [hU] at heq
      simp at heq
    · rename_i handle2 rest2 heq
      rw [hU] at heq
      obtain ⟨h1, h2⟩ : handle = handle2 ∧ rest = rest2 := by
        injection heq with ha hb
        exact ⟨ha, hb⟩
      subst h1
      subst h2
      have hany : ((handle :: rest).any
          (fun f => decide (f.indices.getLast? ≠ handle.indices.getLast?))) = false := by
        rw [List.any_eq_false]
        intro f hf
        rw [← hU] at hf
        simp [hall f hf]
      rw [if_neg (by rw [hany]; simp)]

/-- Witness for the amended C5: a candidate whose functions have distinct
trailing dimensions (`x` vs `y`) is skipped. -/
theorem fission_trailing_dim_gate_wit :
    (fWitA ∈ dedupUnion (fissionWitBody.filterMap stmtExpr) ∧
      fWitB ∈ dedupUnion (fissionWitBody.filterMap stmtExpr) ∧
      fWitA.indices.getLast? ≠ fWitB.indices.getLast?) ∧
    loopFissionCandidate 2 1 2 fissionWitBody = none :=
  ⟨⟨by decide, by decide, by decide⟩,
    (fission_trailing_dim_gate 2 1 2 fissionWitBody).1 fWitA fWitB
      (by decide) (by decide) (by decide)⟩

-- ----------------------------------------------------------------------
-- C6: the padding pass and its dtype assertion
-- ----------------------------------------------------------------------

lemma paddingCandidates_subset (exprs : List PExpr) :
    ∀ f ∈ paddingCandidates exprs, f ∈ paddingWrites exprs := by
  intro f hf
  unfold paddingCandidates at hf
  split at hf
  · simp at hf
  · rename_i shape heq
    by_cases h2 : shape.isEmpty = true
    · rw [if_pos h2] at hf
      simp at hf
    · rw [if_neg h2] at hf
      exact List.mem_of_mem_filter hf

/-- Claim C6 counterexample: a tree whose expressions write two arrays of
the same rank and trailing extent but with differing dtypes makes the
padding pass fail its `assert all(e.dtype == dtype for e in exprs)` — an
exception escapes for a single-tree IR shape, contradicting the claim
that only pre-flight configuration problems are fatal. -/
theorem padding_mixed_dtype_cex :
    paddingCheck [("float32", 8), ("float64", 4)] 16 padCexExprs =
      Except.error "assert all(e.dtype == dtype for e in exprs) failed" ∧
    ("float32" : String) ≠ "float64" :=
  ⟨rfl, by decide⟩

/-- Claim C6 (amended): the feasibility segment of the padding pass never
raises as long as the expressions writing the padding candidates all share
one dtype — heuristic bail-outs skip the tree; but when two candidate
writers have differing dtypes the pass raises an assertion error rather
than skipping that tree. -/
theorem padding_dtype_assertion (simdTable : List (String × Int)) (fb : Int)
    (exprs : List PExpr) :
    ((∃ e1 ∈ paddingWriters exprs, ∃ e2 ∈ paddingWriters exprs,
        e1.dtype ≠ e2.dtype) →
      ∃ msg, paddingCheck simdTable fb exprs = .error msg) ∧
    ((∀ e1 ∈ paddingWriters exprs, ∀ e2 ∈ paddingWriters exprs,
        e1.dtype = e2.dtype) →
      ∃ o, paddingCheck simdTable fb exprs = .ok o) := by
  constructor
  · rintro ⟨e1, he1, e2, he2, hne⟩
    have hc1 : e1.outF ∈ paddingCandidates exprs :=
      of_decide_eq_true (List.mem_filter.1 he1).2
    unfold paddingCheck
    by_cases h1 : (paddingWrites exprs).isEmpty = true
    · exfalso
      have hw : paddingWrites exprs = [] := List.isEmpty_iff.1 h1
      have := paddingCandidates_subset exprs _ hc1
      rw [hw] at this
      simp at this
    · rw [if_neg h1]
      split
      · rename_i heq
        exfalso
        have : paddingCandidates exprs = [] := by
          unfold paddingCandidates
          rw [heq]
        rw [this] at hc1
        simp at hc1
      · rename_i shape heq
        by_cases h2 : shape.isEmpty = true
        · exfalso
          have : paddingCandidates exprs = [] := by
            unfold paddingCandidates
            rw [heq]
            simp [h2]
          rw [this] at hc1
          simp at hc1
        · rw [if_neg h2]
          rw [if_neg (show ¬ (paddingCandidates exprs).isEmpty = true by
            intro hh
            rw [List.isEmpty_iff.1 hh] at hc1
            simp at hc1)]
          split
          · exact ⟨_, rfl⟩
          · rename_i e0 es heqw
            by_cases h3 : ((e0 :: es).all (fun e => decide (e.dtype = e0.dtype))) = true
            · exfalso
              have k1 := List.all_eq_true.1 h3 e1 (by rw [← heqw]; exact he1)
              have k2 := List.all_eq_true.1 h3 e2 (by rw [← heqw]; exact he2)
              simp only [decide_eq_true_eq] at k1 k2
              exact hne (k1.trans k2.symm)
            · rw [if_neg h3]
              exact ⟨_, rfl⟩
  · intro huni
    unfold paddingCheck
    by_cases h1 : (paddingWrites exprs).isEmpty = true
    · rw [if_pos h1]
      exact ⟨_, rfl⟩
    · rw [if_neg h1]
      split
      · exact ⟨_, rfl⟩
      · rename_i shape heq
        by_cases h2 : shape.isEmpty = true
        · rw [if_pos h2]
          exact ⟨_, rfl⟩
        · rw [if_neg h2]
          by_cases h4 : (paddingCandidates exprs).isEmpty = true
          · rw [if_pos h4]
            exact ⟨_, rfl⟩
          · rw [if_neg h4]
            split
            · rename_i heqw
              exfalso
              have hcne : paddingCandidates exprs ≠ [] := by
                intro hh
                rw [hh] at h4
                simp at h4
              obtain ⟨f, hf⟩ := List.exists_mem_of_ne_nil _ hcne
              have hfw : f ∈ paddingWrites exprs :=
                paddingCandidates_subset exprs f hf
              rw [paddingWrites, List.mem_dedup] at hfw
              obtain ⟨e, he, rfl⟩ := List.mem_map.1 hfw
              have : e ∈ paddingWriters exprs :=
                List.mem_filter.2 ⟨he, decide_eq_true hf⟩
              rw [heqw] at this
              simp at this
            · rename_i e0 es heqw
              rw [if_pos ?_]
              · exact ⟨_, rfl⟩
              · rw [List.all_eq_true]
                intro e heww
                have hmem : e ∈ paddingWriters exprs := by
                  rw [heqw]
                  exact heww
                have h0 : e0 ∈ paddingWriters exprs := by
                  rw [heqw]
                  simp
                exact decide_eq_true (huni e hmem e0 h0)

/-- Witness for the amended C6: the same two arrays written with one
shared dtype are planned without error. -/
theorem padding_dtype_assertion_wit :
    (∀ e1 ∈ paddingWriters padWitExprs, ∀ e2 ∈ paddingWriters padWitExprs,
        e1.dtype = e2.dtype) ∧
    (∃ o, paddingCheck [("float32", 8)] 16 padWitExprs = .ok o) :=
  ⟨by decide, (padding_dtype_assertion [("float32", 8)] 16 padWitExprs).2
    (by decide)⟩

-- ----------------------------------------------------------------------
-- C7/C10: block-shape resolution
-- ----------------------------------------------------------------------

lemma resolveBlockshape_seq (blocked : List String) (l : List Int)
    (hl : ¬ l.isEmpty = true) :
    resolveBlockshape blocked (.seqOf l) =
      ((blocked.zip l).map (fun kv => (kv.1, BlockVal.conc kv.2)) ++
        (blocked.drop l.length).map (fun k => (k, BlockVal.unsetVal)),
       (if blocked.length < l.length then
           ["blockshape has more entries than blocked loops"] else []) ++
       (if l.length < blocked.length then
           ["blockshape has fewer entries than blocked loops"] else [])) := by
  rw [resolveBlockshape, if_neg (by simpa [falsyShape] using hl)]

lemma resolve_keys (blocked : List String) (l : List Int) :
    ((blocked.zip l).map (fun kv => (kv.1, BlockVal.conc kv.2)) ++
      (blocked.drop l.length).map (fun k => (k, BlockVal.unsetVal))).map Prod.fst
    = blocked := by
  induction blocked generalizing l with
  | nil => simp
  | cons b bs ih =>
      cases l with
      | nil => simp [Function.comp_def]
      | cons x xs =>
          simp only [List.zip_cons_cons, List.map_cons, List.length_cons,
            List.drop_succ_cons, List.cons_append]
          rw [ih xs]

/-- Claim C7 counterexample: two blocked dimensions, caller-supplied
block-shape `[5]`.  A diagnostic is emitted and the run continues, but the
dimension without a supplied entry is bound to the unset value (None), not
to the heuristic block size. -/
theorem blockshape_mismatch_cex :
    (resolveBlockshape ["i", "j"] (.seqOf [5])).2 ≠ [] ∧
    ("j", BlockVal.unsetVal) ∈ (resolveBlockshape ["i", "j"] (.seqOf [5])).1 ∧
    ¬ ("j", BlockVal.heuristicFn) ∈ (resolveBlockshape ["i", "j"] (.seqOf [5])).1 :=
  ⟨by decide, by decide, by decide⟩

/-- Claim C7 (amended): a sequence block-shape of mismatched cardinality
is recoverable — a diagnostic is emitted and every blocked dimension still
receives a binding: the zipped prefix gets the supplied sizes (extra
entries are dropped), and each blocked dimension beyond the supplied
entries is set to the unset value (None), not to the heuristic. -/
theorem blockshape_mismatch_recovered (blocked : List String) (l : List Int)
    (hl : ¬ l.isEmpty = true) :
    ((resolveBlockshape blocked (.seqOf l)).1.map Prod.fst = blocked) ∧
    ((resolveBlockshape blocked (.seqOf l)).1.length = blocked.length) ∧
    (l.length ≠ blocked.length → (resolveBlockshape blocked (.seqOf l)).2 ≠ []) ∧
    (∀ kv ∈ blocked.zip l,
        (kv.1, BlockVal.conc kv.2) ∈ (resolveBlockshape blocked (.seqOf l)).1) ∧
    (∀ k ∈ blocked.drop l.length,
        (k, BlockVal.unsetVal) ∈ (resolveBlockshape blocked (.seqOf l)).1) := by
  rw [resolveBlockshape_seq blocked l hl]
  refine ⟨resolve_keys blocked l, ?_, ?_, ?_, ?_⟩
  · have := congrArg List.length (resolve_keys blocked l)
    simpa using this
  · intro hne
    by_cases h1 : blocked.length < l.length
    · rw [if_pos h1]
      simp
    · rw [if_neg h1, if_pos (by omega)]
      simp
  · intro kv hkv
    exact List.mem_append_left _ (List.mem_map_of_mem _ hkv)
  · intro k hk
    exact List.mem_append_right _ (List.mem_map_of_mem _ hk)

/-- Witness for the amended C7 at `blocked = [i, j]`, supplied shape `[5]`. -/
theorem blockshape_mismatch_recovered_wit :
    (¬ ([5] : List Int).isEmpty = true) ∧
    (((resolveBlockshape ["i", "j"] (.seqOf [5])).1.map Prod.fst = ["i", "j"]) ∧
     ((resolveBlockshape ["i", "j"] (.seqOf [5])).1.length = (["i", "j"] : List String).length) ∧
     (([5] : List Int).length ≠ (["i", "j"] : List String).length →
        (resolveBlockshape ["i", "j"] (.seqOf [5])).2 ≠ []) ∧
     (∀ kv ∈ (["i", "j"] : List String).zip ([5] : List Int),
        (kv.1, BlockVal.conc kv.2) ∈ (resolveBlockshape ["i", "j"] (.seqOf [5])).1) ∧
     (∀ k ∈ (["i", "j"] : List String).drop ([5] : List Int).length,
        (k, BlockVal.unsetVal) ∈ (resolveBlockshape ["i", "j"] (.seqOf [5])).1)) :=
  ⟨by decide, blockshape_mismatch_recovered ["i", "j"] [5] (by decide)⟩

/-- Claim C10 counterexample: the scalar block-shape 0 has no length, yet
the pass does not assign it to the first blocked dimension — `if not
blockshape` routes the falsy scalar to the heuristic for every dimension
(and the other dimensions do not get the unset value either). -/
theorem blockshape_scalar_zero_cex :
    resolveBlockshape ["i", "j"] (.scalarOf 0) =
      ([("i", BlockVal.heuristicFn), ("j", BlockVal.heuristicFn)], []) ∧
    ¬ ("i", BlockVal.conc 0) ∈ (resolveBlockshape ["i", "j"] (.scalarOf 0)).1 ∧
    ¬ ("j", BlockVal.unsetVal) ∈ (resolveBlockshape ["i", "j"] (.scalarOf 0)).1 :=
  ⟨by decide, by decide, by decide⟩

/-- Claim C10 (amended): a *non-zero* (truthy) scalar block-shape with at
least one blocked dimension is assigned as the block size of the first
blocked dimension only; every other blocked dimension receives the unset
value (None), and no diagnostic is emitted.  (The falsy scalar 0 instead
takes the absent-shape heuristic path.) -/
theorem blockshape_scalar_first_dim (v : Int) (k0 : String)
    (rest : List String) (hv : v ≠ 0) :
    (resolveBlockshape (k0 :: rest) (.scalarOf v)).1 =
      (k0, BlockVal.conc v) :: rest.map (fun k => (k, BlockVal.unsetVal)) ∧
    (resolveBlockshape (k0 :: rest) (.scalarOf v)).2 = [] ∧
    (∀ k ∈ rest,
        (k, BlockVal.unsetVal) ∈ (resolveBlockshape (k0 :: rest) (.scalarOf v)).1) := by
  have hres : resolveBlockshape (k0 :: rest) (.scalarOf v) =
      ((k0, BlockVal.conc v) :: rest.map (fun k => (k, BlockVal.unsetVal)), []) := by
    rw [resolveBlockshape, if_neg (by simpa [falsyShape] using hv)]
  rw [hres]
  refine ⟨rfl, rfl, ?_⟩
  intro k hk
  exact List.mem_cons_of_mem _ (List.mem_map_of_mem _ hk)

/-- Witness for the amended C10 at scalar 4 over blocked dimensions i, j. -/
theorem blockshape_scalar_first_dim_wit :
    ((4 : Int) ≠ 0) ∧
    ((resolveBlockshape ["i", "j"] (.scalarOf 4)).1 =
        ("i", BlockVal.conc 4) :: (["j"] : List String).map
          (fun k => (k, BlockVal.unsetVal)) ∧
     (resolveBlockshape ["i", "j"] (.scalarOf 4)).2 = [] ∧
     (∀ k ∈ (["j"] : List String),
        (k, BlockVal.unsetVal) ∈ (resolveBlockshape ["i", "j"] (.scalarOf 4)).1)) :=
  ⟨by decide, blockshape_scalar_first_dim 4 "i" ["j"] (by decide)⟩

-- ----------------------------------------------------------------------
-- C9: custom rewriter construction
-- ----------------------------------------------------------------------

/-- Claim C9: constructing the custom rewriter with a non-string `passes`
input, or with a comma-separated list naming any pass outside the fixed
registry (fission, padding, split), fails with the configuration error at
construction time — for *every* possible pipeline semantics no tree is
ever produced, so no pass executes and no tree is modified. -/
theorem custom_rewriter_rejects_bad_passes :
    (∀ (pipeline : List String → List Nest → List Nest) (trees : List Nest),
        customRun pipeline PassesInput.nonStrArg trees = .error "DLEException") ∧
    (∀ s, (∃ i ∈ splitComma s, i ∉ passesRegistry) →
      ∀ (pipeline : List String → List Nest → List Nest) (trees : List Nest),
        customRun pipeline (PassesInput.strArg s) trees = .error "DLEException") := by
  constructor
  · intro pipeline trees
    rfl
  · rintro s ⟨i, hi, hni⟩ pipeline trees
    cases hb : (splitComma s).all (fun j => decide (j ∈ passesRegistry)) with
    | true =>
        exfalso
        have := List.all_eq_true.1 hb i hi
        simp only [decide_eq_true_eq] at this
        exact hni this
    | false =>
        simp [customRun, customRewriterInit, hb]

/-- Witness for C9 at `passes = "fission,bogus"`. -/
theorem custom_rewriter_rejects_bad_passes_wit :
    (∃ i ∈ splitComma "fission,bogus", i ∉ passesRegistry) ∧
    customRun (fun _ trees => trees) (PassesInput.strArg "fission,bogus") [] =
      .error "DLEException" :=
  ⟨⟨"bogus", by decide, by decide⟩,
    custom_rewriter_rejects_bad_passes.2 "fission,bogus"
      ⟨"bogus", by decide, by decide⟩ (fun _ trees => trees) []⟩
